import Mathlib

/-!
# go-minio-upload: the deduplicating upload pipeline of `cmd/upload.go`

A shallow embedding of `cmd/upload.go`.  Go strings are embedded as Lean strings
(every index the source computes falls on a `.` or `/` boundary, so bytes and
characters agree).  The collaborators the program calls but does not define
(`os.Stat`, the file contents, `crypto/sha256`, `mime.TypeByExtension`,
`encoding/json`, the Pebble store and the MinIO client) are fields of `World`;
the Pebble store and the bucket are explicit state.
-/

namespace GoMinioUpload

/-! ## Paths (`path/filepath`, Unix separator) -/

namespace filepath

/-- Backward scan of `filepath.Ext`: the argument is the path read from its last
byte towards the first, `acc` the bytes already passed.  The loop stops at a
path separator (empty result) or at the first dot (the suffix from that dot). -/
def extScan : List Char → List Char → List Char
  | [], _ => []
  | c :: rest, acc =>
    if c = '/' then [] else if c = '.' then c :: acc else extScan rest (c :: acc)

/-- Go's `filepath.Ext`: the suffix beginning at the final dot in the final
element of `path`, empty if there is no such dot. -/
def Ext (path : String) : String := ⟨extScan path.data.reverse []⟩

/-- Go's `filepath.Base`: the last element of `path`, trailing separators
removed; `.` for the empty path and `/` for a path of separators only. -/
def Base (path : String) : String :=
  if path.data = [] then "."
  else
    let stripped := path.data.reverse.dropWhile (fun c => c = '/')
    let last := stripped.takeWhile (fun c => c ≠ '/')
    if last = [] then "/" else ⟨last.reverse⟩

end filepath

/-- Source `getExtension`. -/
def getExtension (filePath : String) : String := filepath.Ext filePath

/-- Source `addModTimeToFilename`: `name` is `filename[0 : len(filename)-len(ext)]`
and the result is `Sprintf("%s-%s%s", name, modTime, ext)`. -/
def addModTimeToFilename (filename : String) (modTime : String) : String :=
  let ext := filepath.Ext filename
  let name : String := ⟨filename.data.take (filename.data.length - ext.data.length)⟩
  name ++ "-" ++ modTime ++ ext

/-! ## Time formatting (`time.Time.Format`) -/

/-- Wall-clock fields of a `time.Time`. -/
structure Time where
  year : Int
  month : Nat
  day : Nat
  hour : Nat
  minute : Nat
  second : Nat
  deriving DecidableEq, Repr

/-- The calendar ranges in which the fields of a `time.Time` always lie. -/
def Time.Valid (t : Time) : Prop :=
  (1 ≤ t.month ∧ t.month ≤ 12) ∧ (1 ≤ t.day ∧ t.day ≤ 31) ∧
    t.hour < 24 ∧ t.minute < 60 ∧ t.second < 60

instance (t : Time) : Decidable t.Valid := by
  unfold Time.Valid
  infer_instance

/-- One decimal digit. -/
def digitChar (d : Nat) : Char :=
  match d with
  | 0 => '0' | 1 => '1' | 2 => '2' | 3 => '3' | 4 => '4'
  | 5 => '5' | 6 => '6' | 7 => '7' | 8 => '8' | _ => '9'

/-- Decimal digits of `u`, assembled from the least significant one, in front
of `acc`. -/
def decimal : Nat → Nat → List Char → List Char
  | 0, _, acc => acc
  | fuel + 1, u, acc =>
    let acc1 := digitChar (u % 10) :: acc
    if u / 10 = 0 then acc1 else decimal fuel (u / 10) acc1

/-- Go's `appendInt` of package `time`: the decimal form of `x`, zero padded to
`width` digits, after a minus sign when `x` is negative. -/
def appendInt (x : Int) (width : Nat) : List Char :=
  let u := x.natAbs
  let sign : List Char := if x < 0 then ['-'] else []
  if width = 2 ∧ u < 100 then sign ++ [digitChar (u / 10), digitChar (u % 10)]
  else
    let ds := decimal (u + 1) u []
    sign ++ List.replicate (width - ds.length) '0' ++ ds

/-- The layout `"200601"`. -/
def Time.format200601 (t : Time) : String :=
  ⟨appendInt t.year 4 ++ appendInt t.month 2⟩

/-- The layout `"20060102150405"`. -/
def Time.format20060102150405 (t : Time) : String :=
  ⟨appendInt t.year 4 ++ appendInt t.month 2 ++ appendInt t.day 2 ++
    appendInt t.hour 2 ++ appendInt t.minute 2 ++ appendInt t.second 2⟩

/-- What the program reads from an `os.FileInfo`. -/
structure FileInfo where
  isDir : Bool
  modTime : Time
  deriving DecidableEq, Repr

/-- Source `getFilePath`. -/
def getFilePath (info : FileInfo) : String := info.modTime.format200601

/-- Source `getModifyTime`. -/
def getModifyTime (info : FileInfo) : String := info.modTime.format20060102150405

/-! ## Data model -/

/-- Source `FileMeta`. -/
structure FileMeta where
  SHA : String
  Name : String
  /-- Field `Type` of the source (a reserved word here). -/
  ContentType : String
  FilePath : String
  ModifyTime : String
  deriving DecidableEq, Repr

/-- File contents. -/
abbrev Bytes := List Nat

/-- The Pebble store: keys (fingerprints) and values (encoded records), at most
one value being visible per key. -/
abbrev Index := List (String × String)

/-- Value stored under `key`, if any. -/
def Index.get : Index → String → Option String
  | [], _ => none
  | (k, v) :: rest, key => if k = key then some v else Index.get rest key

/-- Store `value` under `key`, replacing what was there. -/
def Index.set (db : Index) (key value : String) : Index :=
  (key, value) :: db.filter (fun e => e.1 ≠ key)

/-- Number of records held under `key`. -/
def Index.count (db : Index) (key : String) : Nat :=
  (db.filter (fun e => e.1 = key)).length

/-- An object of the bucket. -/
structure Object where
  body : Bytes
  contentType : String
  deriving DecidableEq, Repr

/-- The bucket: object keys and objects. -/
abbrev Remote := List (String × Object)

/-- Create or overwrite the object at `key`. -/
def Remote.put (r : Remote) (key : String) (o : Object) : Remote :=
  (key, o) :: r.filter (fun e => e.1 ≠ key)

/-- Calls the pipeline makes on its collaborators. -/
inductive Event where
  | hash (filePath : String)
  | get (key : String)
  | put (key filePath contentType : String)
  | set (key value : String)
  deriving DecidableEq, Repr

/-- The environment of a run. -/
structure World where
  /-- Result of `os.Stat`; `none` is an error. -/
  stat : String → Option FileInfo
  /-- Bytes of a file; `none` when it cannot be opened or read. -/
  content : String → Option Bytes
  /-- Lower-case hex SHA-256 digest. -/
  sha256hex : Bytes → String
  /-- Go's `mime.TypeByExtension`; the empty string when unknown. -/
  typeByExtension : String → String
  /-- Go's `json.Marshal` of a `FileMeta`; `none` is an error. -/
  marshal : FileMeta → Option String
  /-- Whether `db.Get` of a key fails with an error other than not-found,
  given the calls made so far. -/
  getErr : List Event → String → Bool
  /-- Whether `db.Set` fails, given the calls made so far. -/
  setErr : List Event → String → String → Bool
  /-- Whether `FPutObject` fails, given the calls made so far. -/
  putErr : List Event → String → String → String → Bool

/-- State of a run: the store, the bucket, the calls made so far and the
variable `basePath` of `main`. -/
structure State where
  db : Index
  remote : Remote
  trace : List Event
  basePath : String

/-- Append a call to the trace. -/
def State.emit (s : State) (e : Event) : State := { s with trace := s.trace ++ [e] }

/-- How the process ends: the loop ran to its end, `log.Fatal`, the `return`
of `main` inside the loop, or a run-time panic. -/
inductive Outcome where
  | finished
  | fatal
  | returned
  | panicked
  deriving DecidableEq, Repr

/-- Errors of `db.Get`. -/
inductive GetError where
  | notFound
  | unavailable
  deriving DecidableEq, Repr

/-! ## Operations -/

/-- Source `GenerateSHA256`.  `none` stands for the `log.Fatal` inside it (the
file cannot be opened or read); the returned error is always nil. -/
def GenerateSHA256 (w : World) (filePath : String) : Option String :=
  match w.content filePath with
  | none => none
  | some bytes => some (w.sha256hex bytes)

/-- Source `GetMimeType`.  `none` stands for the run-time panic of indexing
`extension[0]` in an empty string. -/
def GetMimeType (w : World) (extension : String) : Option String :=
  match extension.data with
  | [] => none
  | c :: _ =>
    if c ≠ '.' then some (w.typeByExtension ("." ++ extension))
    else some (w.typeByExtension extension)

/-- Pebble's `db.Get`: the call is recorded; the value when the key is present
and the store readable. -/
def dbGet (w : World) (s : State) (key : String) : State × Except GetError String :=
  let s1 := s.emit (Event.get key)
  if w.getErr s.trace key then (s1, Except.error GetError.unavailable)
  else match Index.get s.db key with
    | some value => (s1, Except.ok value)
    | none => (s1, Except.error GetError.notFound)

/-- Pebble's `db.Set` with `pebble.Sync`; `false` in second place is an error. -/
def dbSet (w : World) (s : State) (key value : String) : State × Bool :=
  let s1 := s.emit (Event.set key value)
  if w.setErr s.trace key value then (s1, false)
  else ({ s1 with db := Index.set s.db key value }, true)

/-- The content type under which MinIO's `FPutObject` stores the object: the one
passed, or, when that is empty, the type of the extension of the local path,
or `application/octet-stream` when the extension has none. -/
def objectContentType (w : World) (filePath contentType : String) : String :=
  if contentType = "" then
    if w.typeByExtension (filepath.Ext filePath) = "" then "application/octet-stream"
    else w.typeByExtension (filepath.Ext filePath)
  else contentType

/-- MinIO's `FPutObject` into the configured bucket; on an error the bucket is
as before. -/
def FPutObject (w : World) (s : State) (key filePath contentType : String) : State × Bool :=
  let s1 := s.emit (Event.put key filePath contentType)
  match w.content filePath with
  | none => (s1, false)
  | some body =>
    if w.putErr s.trace key filePath contentType then (s1, false)
    else
      ({ s1 with
          remote := Remote.put s.remote key
            ⟨body, objectContentType w filePath contentType⟩ }, true)

/-- Result of one iteration of the loop of `main`. -/
inductive Step where
  | next (s : State)
  | halt (s : State) (o : Outcome)

/-- State in which an iteration ends. -/
def Step.state : Step → State
  | Step.next s => s
  | Step.halt s _ => s

/-- Body of the loop `for _, filePath := range uploadFiles` of `main`. -/
def processFile (w : World) (s : State) (filePath : String) : Step :=
  match w.stat filePath with
  | none => Step.next s
  | some info =>
    let filename := filepath.Base filePath
    if info.isDir then Step.next s
    else
      let extName := getExtension filename
      if ".zip" = extName then Step.next s
      else
        let s1 := s.emit (Event.hash filePath)
        match GenerateSHA256 w filePath with
        | none => Step.halt s1 Outcome.fatal
        | some sha =>
          match GetMimeType w (getExtension filePath) with
          | none => Step.halt s1 Outcome.panicked
          | some contentType =>
            match dbGet w s1 sha with
            | (s2, Except.ok _) => Step.next s2
            | (s2, Except.error _) =>
              let basePath := getFilePath info ++ "/"
              let s3 := { s2 with basePath := basePath }
              let modifyTime := getModifyTime info
              let filename := addModTimeToFilename filename modifyTime
              match FPutObject w s3 (basePath ++ filename) filePath contentType with
              | (s4, false) => Step.halt s4 Outcome.returned
              | (s4, true) =>
                let fileMeta : FileMeta :=
                  { SHA := sha, Name := filename, ContentType := contentType,
                    FilePath := basePath, ModifyTime := modifyTime }
                match w.marshal fileMeta with
                | none => Step.halt s4 Outcome.fatal
                | some metaBytes =>
                  match dbSet w s4 fileMeta.SHA metaBytes with
                  | (s5, false) => Step.halt s5 Outcome.fatal
                  | (s5, true) => Step.next s5

/-- The loop of `main` over the enumerated paths, in order. -/
def run (w : World) : List String → State → State × Outcome
  | [], s => (s, Outcome.finished)
  | filePath :: rest, s =>
    match processFile w s filePath with
    | Step.next s1 => run w rest s1
    | Step.halt s1 o => (s1, o)

/-- Exit status of the process for each way of ending; `walkErr` is whether
`filepath.Walk` returned an error, which `main` tests after the loop. -/
def exitStatus (walkErr : Bool) : Outcome → Nat
  | Outcome.finished => if walkErr then 1 else 0
  | Outcome.fatal => 1
  | Outcome.returned => 0
  | Outcome.panicked => 2

/-- Source `main` from the loop on: the state after the run and the exit
status of the process. -/
def main (w : World) (uploadFiles : List String) (walkErr : Bool) (s : State) : State × Nat :=
  let r := run w uploadFiles { s with basePath := "" }
  (r.1, exitStatus walkErr r.2)

/-! ## The naming policy as `main` applies it -/

/-- The value `main` gives `basePath` for a file: `getFilePath(info) + "/"`. -/
def remoteDir (info : FileInfo) : String := getFilePath info ++ "/"

/-- The value `main` gives `filename` for a file before the upload:
`addModTimeToFilename(filepath.Base(filePath), getModifyTime(info))`. -/
def storedName (filePath : String) (info : FileInfo) : String :=
  addModTimeToFilename (filepath.Base filePath) (getModifyTime info)

/-- The object key `basePath+filename` that `main` passes to `FPutObject`. -/
def targetKey (filePath : String) (info : FileInfo) : String :=
  remoteDir info ++ storedName filePath info

/-- The record `main` builds after an upload. -/
def recordOf (filePath : String) (info : FileInfo) (sha contentType : String) : FileMeta :=
  { SHA := sha, Name := storedName filePath info, ContentType := contentType,
    FilePath := remoteDir info, ModifyTime := getModifyTime info }

/-! ## Observations on a trace -/

/-- Calls of `FPutObject` in a trace. -/
def putCalls (t : List Event) : List Event :=
  t.filter (fun e => match e with | Event.put _ _ _ => true | _ => false)

/-- Calls of `db.Set` in a trace. -/
def setCalls (t : List Event) : List Event :=
  t.filter (fun e => match e with | Event.set _ _ => true | _ => false)

/-- Whether the iteration for `filePath` gets as far as hashing: the path can
be examined, is not a directory and its base name has not the extension `.zip`. -/
def reaches (w : World) (filePath : String) : Bool :=
  match w.stat filePath with
  | none => false
  | some info => !info.isDir && decide (getExtension (filepath.Base filePath) ≠ ".zip")

/-- The calls made by the iteration for `filePath` started in state `s`. -/
def callsOf (w : World) (s : State) (filePath : String) : List Event :=
  (processFile w s filePath).state.trace.drop s.trace.length

/-- Whether `filePath` is a file the loop hashes and whose fingerprint is `sha`. -/
def eligible (w : World) (sha : String) (filePath : String) : Bool :=
  reaches w filePath && decide (GenerateSHA256 w filePath = some sha)

/-- The upload calls of a trace made for files whose fingerprint is `sha`. -/
def uploadsOf (w : World) (sha : String) (t : List Event) : List Event :=
  t.filter (fun e =>
    match e with
    | Event.put _ filePath _ => decide (GenerateSHA256 w filePath = some sha)
    | _ => false)

/-- Successive runs of the program over the given enumerations, each one a
new process working on the store and the bucket the previous one left; the
sequence is followed as long as the runs reach the end of their loop. -/
def runs (w : World) : List (List String) → State → State × Outcome
  | [], s => (s, Outcome.finished)
  | uploadFiles :: later, s =>
    match run w uploadFiles { s with basePath := "" } with
    | (s1, Outcome.finished) => runs w later s1
    | (s1, o) => (s1, o)

/-- The fingerprint `sha` is not indexed and `n` uploads were made for it. -/
def Fresh (w : World) (sha : String) (n : Nat) (s : State) : Prop :=
  Index.get s.db sha = none ∧ (uploadsOf w sha s.trace).length = n

/-- The fingerprint `sha` is indexed by exactly one record and one upload more
than `n` was made for it. -/
def Stored (w : World) (sha : String) (n : Nat) (s : State) : Prop :=
  (∃ value, Index.get s.db sha = some value) ∧ Index.count s.db sha = 1 ∧
    (uploadsOf w sha s.trace).length = n + 1

/-! ## A concrete environment -/

/-- Modification time 2024-01-31 15:30:00. -/
def sampleTime : Time := ⟨2024, 1, 31, 15, 30, 0⟩

/-- The bytes of `hello`. -/
def helloBytes : Bytes := [104, 101, 108, 108, 111]

/-- A source tree: `/data/sub` is a directory, `/data/gone.txt` cannot be
examined, `/data/locked.txt` cannot be read, `/data/other.txt` holds one byte
and every other path holds `hello`; all carry `sampleTime`.  The flags say
whether reads of the store, uploads and writes of the store fail. -/
def sampleWorld (getFails putFails setFails : Bool) : World where
  stat := fun p =>
    if p = "/data/sub" then some ⟨true, sampleTime⟩
    else if p = "/data/gone.txt" then none
    else some ⟨false, sampleTime⟩
  content := fun p =>
    if p = "/data/locked.txt" then none
    else if p = "/data/other.txt" then some [1]
    else some helloBytes
  sha256hex := fun b => if b = helloBytes then "2cf24dba5fb0a30e" else "4bf5122f344554c5"
  typeByExtension := fun e =>
    if e = ".txt" then "text/plain; charset=utf-8"
    else if e = ".pdf" then "application/pdf" else ""
  marshal := fun m =>
    some (m.SHA ++ "|" ++ m.Name ++ "|" ++ m.ContentType ++ "|" ++ m.FilePath ++ "|" ++
      m.ModifyTime)
  getErr := fun _ _ => getFails
  setErr := fun _ _ _ => setFails
  putErr := fun _ _ _ _ => putFails

/-- A fresh run: empty store, empty bucket, no call made. -/
def emptyState : State := ⟨[], [], [], ""⟩

/-! ## The naming contract in the words of the specification -/

/-- The extension as the specification words it: the suffix starting at the
last dot, empty when there is no dot. -/
def specExt : List Char → List Char
  | [] => []
  | c :: rest =>
    if '.' ∈ rest then specExt rest else if c = '.' then c :: rest else []

/-- The stem as the specification words it: the name up to its last dot, the
whole name when there is no dot. -/
def specStem : List Char → List Char
  | [] => []
  | c :: rest =>
    if '.' ∈ rest then c :: specStem rest else if c = '.' then [] else c :: rest

/-- The renamed file as the specification words it: stem, `-`, timestamp,
extension. -/
def specRename (filename modTime : String) : String :=
  ⟨specStem filename.data⟩ ++ "-" ++ modTime ++ ⟨specExt filename.data⟩

/-! ## The loop body, case by case -/

theorem processFile_upload_branch (w : World) (s : State) (filePath : String) (info : FileInfo)
    (sha contentType : String)
    (hstat : w.stat filePath = some info) (hdir : info.isDir = false)
    (hext : getExtension (filepath.Base filePath) ≠ ".zip")
    (hsha : GenerateSHA256 w filePath = some sha)
    (hmime : GetMimeType w (getExtension filePath) = some contentType) :
    processFile w s filePath =
      match dbGet w (s.emit (Event.hash filePath)) sha with
      | (s2, Except.ok _) => Step.next s2
      | (s2, Except.error _) =>
        match FPutObject w { s2 with basePath := getFilePath info ++ "/" }
            (getFilePath info ++ "/" ++
              addModTimeToFilename (filepath.Base filePath) (getModifyTime info))
            filePath contentType with
        | (s4, false) => Step.halt s4 Outcome.returned
        | (s4, true) =>
          match w.marshal
              { SHA := sha,
                Name := addModTimeToFilename (filepath.Base filePath) (getModifyTime info),
                ContentType := contentType, FilePath := getFilePath info ++ "/",
                ModifyTime := getModifyTime info } with
          | none => Step.halt s4 Outcome.fatal
          | some metaBytes =>
            match dbSet w s4 sha metaBytes with
            | (s5, false) => Step.halt s5 Outcome.fatal
            | (s5, true) => Step.next s5 := by
  simp only [processFile, hstat, hdir, hsha, hmime, if_neg (Ne.symm hext)]
  rfl

theorem dbGet_fst (w : World) (s : State) (key : String) :
    (dbGet w s key).1 = s.emit (Event.get key) := by
  unfold dbGet
  split
  · rfl
  · split <;> rfl

theorem dbGet_found (w : World) (s : State) (key value : String)
    (hkey : Index.get s.db key = some value) (hread : w.getErr s.trace key = false) :
    dbGet w s key = (s.emit (Event.get key), Except.ok value) := by
  simp [dbGet, hkey, hread]

theorem dbGet_notFound (w : World) (s : State) (key : String)
    (hkey : Index.get s.db key = none) (hread : w.getErr s.trace key = false) :
    dbGet w s key = (s.emit (Event.get key), Except.error GetError.notFound) := by
  simp [dbGet, hkey, hread]

theorem dbGet_unavailable (w : World) (s : State) (key : String)
    (hread : w.getErr s.trace key = true) :
    dbGet w s key = (s.emit (Event.get key), Except.error GetError.unavailable) := by
  simp [dbGet, hread]

theorem GenerateSHA256_content (w : World) (filePath sha : String)
    (hsha : GenerateSHA256 w filePath = some sha) :
    ∃ body, w.content filePath = some body ∧ w.sha256hex body = sha := by
  unfold GenerateSHA256 at hsha
  cases hc : w.content filePath with
  | none => simp [hc] at hsha
  | some body => exact ⟨body, rfl, by simpa [hc] using hsha⟩

/-- The iteration for a file whose lookup succeeds. -/
theorem processFile_found (w : World) (s : State) (filePath : String) (info : FileInfo)
    (sha contentType value : String)
    (hstat : w.stat filePath = some info) (hdir : info.isDir = false)
    (hext : getExtension (filepath.Base filePath) ≠ ".zip")
    (hsha : GenerateSHA256 w filePath = some sha)
    (hmime : GetMimeType w (getExtension filePath) = some contentType)
    (hget : (dbGet w (s.emit (Event.hash filePath)) sha).2 = Except.ok value) :
    processFile w s filePath =
      Step.next { s with trace := s.trace ++ [Event.hash filePath, Event.get sha] } := by
  rw [processFile_upload_branch w s filePath info sha contentType hstat hdir hext hsha hmime]
  have h1 := dbGet_fst w (s.emit (Event.hash filePath)) sha
  rcases hd : dbGet w (s.emit (Event.hash filePath)) sha with ⟨s2, r⟩
  rw [hd] at h1 hget
  simp only at h1 hget
  subst h1 hget
  simp [State.emit]

/-- The iteration for a file whose lookup gives an error and whose upload fails. -/
theorem processFile_put_error (w : World) (s : State) (filePath : String) (info : FileInfo)
    (sha contentType : String) (e : GetError)
    (hstat : w.stat filePath = some info) (hdir : info.isDir = false)
    (hext : getExtension (filepath.Base filePath) ≠ ".zip")
    (hsha : GenerateSHA256 w filePath = some sha)
    (hmime : GetMimeType w (getExtension filePath) = some contentType)
    (hget : (dbGet w (s.emit (Event.hash filePath)) sha).2 = Except.error e)
    (hput : w.putErr (s.trace ++ [Event.hash filePath, Event.get sha])
      (getFilePath info ++ "/" ++
        addModTimeToFilename (filepath.Base filePath) (getModifyTime info))
      filePath contentType = true) :
    processFile w s filePath =
      Step.halt
        { db := s.db, remote := s.remote,
          trace := s.trace ++ [Event.hash filePath, Event.get sha,
            Event.put (getFilePath info ++ "/" ++
              addModTimeToFilename (filepath.Base filePath) (getModifyTime info))
              filePath contentType],
          basePath := getFilePath info ++ "/" }
        Outcome.returned := by
  rw [processFile_upload_branch w s filePath info sha contentType hstat hdir hext hsha hmime]
  have h1 := dbGet_fst w (s.emit (Event.hash filePath)) sha
  rcases hd : dbGet w (s.emit (Event.hash filePath)) sha with ⟨s2, r⟩
  rw [hd] at h1 hget
  simp only at h1 hget
  subst h1 hget
  obtain ⟨body, hbody, -⟩ := GenerateSHA256_content w filePath sha hsha
  simp [FPutObject, State.emit, hbody, hput]

/-- The iteration for a file whose lookup gives an error and whose upload,
encoding and index write succeed. -/
theorem processFile_indexed (w : World) (s : State) (filePath : String) (info : FileInfo)
    (sha contentType metaBytes : String) (body : Bytes) (e : GetError)
    (hstat : w.stat filePath = some info) (hdir : info.isDir = false)
    (hext : getExtension (filepath.Base filePath) ≠ ".zip")
    (hbody : w.content filePath = some body)
    (hsha : GenerateSHA256 w filePath = some sha)
    (hmime : GetMimeType w (getExtension filePath) = some contentType)
    (hget : (dbGet w (s.emit (Event.hash filePath)) sha).2 = Except.error e)
    (hput : w.putErr (s.trace ++ [Event.hash filePath, Event.get sha])
      (getFilePath info ++ "/" ++
        addModTimeToFilename (filepath.Base filePath) (getModifyTime info))
      filePath contentType = false)
    (hmarshal : w.marshal
      { SHA := sha,
        Name := addModTimeToFilename (filepath.Base filePath) (getModifyTime info),
        ContentType := contentType, FilePath := getFilePath info ++ "/",
        ModifyTime := getModifyTime info } = some metaBytes)
    (hset : w.setErr (s.trace ++ [Event.hash filePath, Event.get sha,
        Event.put (getFilePath info ++ "/" ++
          addModTimeToFilename (filepath.Base filePath) (getModifyTime info))
          filePath contentType])
      sha metaBytes = false) :
    processFile w s filePath =
      Step.next
        { db := Index.set s.db sha metaBytes,
          remote := Remote.put s.remote
            (getFilePath info ++ "/" ++
              addModTimeToFilename (filepath.Base filePath) (getModifyTime info))
            ⟨body, objectContentType w filePath contentType⟩,
          trace := s.trace ++ [Event.hash filePath, Event.get sha,
            Event.put (getFilePath info ++ "/" ++
              addModTimeToFilename (filepath.Base filePath) (getModifyTime info))
              filePath contentType,
            Event.set sha metaBytes],
          basePath := getFilePath info ++ "/" } := by
  rw [processFile_upload_branch w s filePath info sha contentType hstat hdir hext hsha hmime]
  have h1 := dbGet_fst w (s.emit (Event.hash filePath)) sha
  rcases hd : dbGet w (s.emit (Event.hash filePath)) sha with ⟨s2, r⟩
  rw [hd] at h1 hget
  simp only at h1 hget
  subst h1 hget
  simp [FPutObject, dbSet, State.emit, hbody, hput, hmarshal, hset]

theorem Index.get_set_same (db : Index) (key value : String) :
    Index.get (Index.set db key value) key = some value := by
  simp [Index.set, Index.get]

theorem Index.get_filter_ne (db : Index) (k key : String) (hne : key ≠ k) :
    Index.get (db.filter (fun e => e.1 ≠ k)) key = Index.get db key := by
  induction db with
  | nil => rfl
  | cons e rest ih =>
    obtain ⟨k1, v1⟩ := e
    by_cases h1 : k1 = k
    · have h3 : ¬ k1 = key := fun h => hne (h.symm.trans h1)
      rw [List.filter_cons_of_neg (by simp [h1]), ih]
      simp [Index.get, h3]
    · rw [List.filter_cons_of_pos (by simp [h1])]
      by_cases h2 : k1 = key
      · simp [Index.get, h2]
      · simp only [Index.get, h2, if_false]
        exact ih

theorem Index.get_set_other (db : Index) (k key value : String) (hne : key ≠ k) :
    Index.get (Index.set db k value) key = Index.get db key := by
  have h1 : ¬ k = key := fun h => hne h.symm
  have h2 := Index.get_filter_ne db k key hne
  unfold Index.set
  simp only [Index.get, h1, if_false]
  exact h2

theorem Index.count_set_same (db : Index) (key value : String) :
    Index.count (Index.set db key value) key = 1 := by
  simp [Index.set, Index.count, List.filter_filter]


/-- C4. A path whose base name has the extension `.zip` leaves the state of the
run as it was: no hash, no lookup, no upload, no index write, and the rest of
the enumeration is processed from the unchanged state. -/
theorem zip_excluded (w : World) (s : State) (filePath : String)
    (hzip : getExtension (filepath.Base filePath) = ".zip") :
    processFile w s filePath = Step.next s ∧
      ∀ rest, run w (filePath :: rest) s = run w rest s := by
  have h : processFile w s filePath = Step.next s := by
    unfold processFile
    cases hs : w.stat filePath with
    | none => rfl
    | some info =>
      cases hd : info.isDir <;> simp [hzip]
  exact ⟨h, fun rest => by simp [run, h]⟩

/-- C4, at `archive.zip`. -/
theorem zip_excluded_witness :
    getExtension (filepath.Base "/data/archive.zip") = ".zip" ∧
      processFile (sampleWorld false false false) emptyState "/data/archive.zip" =
        Step.next emptyState ∧
      run (sampleWorld false false false) ["/data/archive.zip", "/data/a.txt"] emptyState =
        run (sampleWorld false false false) ["/data/a.txt"] emptyState :=
  have h := zip_excluded (sampleWorld false false false) emptyState "/data/archive.zip"
    (by decide)
  ⟨by decide, h.1, h.2 ["/data/a.txt"]⟩

/-- The branch `err == nil` of the lookup: a non-directory, non-excluded file
whose fingerprint is a key of the index, `db.Get` returning the value, is
processed without any upload call and without any index write; the index and
the bucket are as before, and when the content type is resolved the iteration
ends after the lookup and the loop goes on. -/
theorem found_is_skipped (w : World) (s : State) (filePath : String) (info : FileInfo)
    (sha value : String)
    (hstat : w.stat filePath = some info) (hdir : info.isDir = false)
    (hext : getExtension (filepath.Base filePath) ≠ ".zip")
    (hsha : GenerateSHA256 w filePath = some sha)
    (hkey : Index.get s.db sha = some value)
    (hread : w.getErr (s.trace ++ [Event.hash filePath]) sha = false) :
    (processFile w s filePath).state.db = s.db ∧
      (processFile w s filePath).state.remote = s.remote ∧
      putCalls (processFile w s filePath).state.trace = putCalls s.trace ∧
      setCalls (processFile w s filePath).state.trace = setCalls s.trace ∧
      Index.get (processFile w s filePath).state.db sha = some value ∧
      (∀ contentType, GetMimeType w (getExtension filePath) = some contentType →
        processFile w s filePath =
          Step.next { s with trace := s.trace ++ [Event.hash filePath, Event.get sha] }) := by
  cases hm : GetMimeType w (getExtension filePath) with
  | none =>
    have h : processFile w s filePath =
        Step.halt (s.emit (Event.hash filePath)) Outcome.panicked := by
      simp [processFile, hstat, hdir, hsha, hm, if_neg (Ne.symm hext)]
    simp [h, Step.state, State.emit, putCalls, setCalls, hkey]
  | some contentType =>
    have h := processFile_found w s filePath info sha contentType value hstat hdir hext hsha hm
      (by rw [dbGet_found w (s.emit (Event.hash filePath)) sha value hkey hread])
    simp [h, Step.state, putCalls, setCalls, hkey]

/-- C2. The fingerprint of `/data/a.txt` is a key of the index, under the record
`R`.  When `db.Get` returns an error other than not-found, the branch
`err == nil` is not taken: the file is uploaded again, `db.Set` replaces `R`
and the run ends with status 0.  With `db.Get` returning `R` the same file
is skipped. -/
theorem indexed_file_reuploaded_on_get_error :
    GenerateSHA256 (sampleWorld true false false) "/data/a.txt" = some "2cf24dba5fb0a30e" ∧
      Index.get [("2cf24dba5fb0a30e", "R")] "2cf24dba5fb0a30e" = some "R" ∧
      (dbGet (sampleWorld true false false)
        (State.emit ⟨[("2cf24dba5fb0a30e", "R")], [], [], ""⟩ (Event.hash "/data/a.txt"))
        "2cf24dba5fb0a30e").2 = Except.error GetError.unavailable ∧
      putCalls (run (sampleWorld true false false) ["/data/a.txt"]
          ⟨[("2cf24dba5fb0a30e", "R")], [], [], ""⟩).1.trace =
        [Event.put "202401/a-20240131153000.txt" "/data/a.txt" "text/plain; charset=utf-8"] ∧
      setCalls (run (sampleWorld true false false) ["/data/a.txt"]
          ⟨[("2cf24dba5fb0a30e", "R")], [], [], ""⟩).1.trace =
        [Event.set "2cf24dba5fb0a30e"
          "2cf24dba5fb0a30e|a-20240131153000.txt|text/plain; charset=utf-8|202401/|20240131153000"] ∧
      (run (sampleWorld true false false) ["/data/a.txt"]
          ⟨[("2cf24dba5fb0a30e", "R")], [], [], ""⟩).1.db =
        [("2cf24dba5fb0a30e",
          "2cf24dba5fb0a30e|a-20240131153000.txt|text/plain; charset=utf-8|202401/|20240131153000")] ∧
      (run (sampleWorld true false false) ["/data/a.txt"]
          ⟨[("2cf24dba5fb0a30e", "R")], [], [], ""⟩).1.remote =
        [("202401/a-20240131153000.txt", ⟨helloBytes, "text/plain; charset=utf-8"⟩)] ∧
      (main (sampleWorld true false false) ["/data/a.txt"] false
          ⟨[("2cf24dba5fb0a30e", "R")], [], [], ""⟩).2 = 0 ∧
      putCalls (run (sampleWorld false false false) ["/data/a.txt"]
          ⟨[("2cf24dba5fb0a30e", "R")], [], [], ""⟩).1.trace = [] ∧
      (run (sampleWorld false false false) ["/data/a.txt"]
          ⟨[("2cf24dba5fb0a30e", "R")], [], [], ""⟩).1.db = [("2cf24dba5fb0a30e", "R")] :=
  ⟨by decide, by decide, rfl, by decide, by decide, by decide, by decide, by decide,
    by decide, by decide⟩

/-- C3. Not found -> Uploading -> Indexed: for a non-directory, non-excluded
file whose fingerprint is not in the index, when the upload, the encoding and
the index write succeed, the iteration makes exactly one upload call, with the
local path, the key `YYYYMM/` + `addModTimeToFilename(base, YYYYMMDDHHMMSS)` and
the resolved content type, then one index write, and ends with the index mapping
the fingerprint to the one record built from the fingerprint and the name,
content type, directory and timestamp of the upload; a modification time in
January 2024 gives the directory `202401/`. -/
theorem not_found_uploads_and_indexes (w : World) (s : State) (filePath : String)
    (info : FileInfo) (sha contentType metaBytes : String)
    (hstat : w.stat filePath = some info) (hdir : info.isDir = false)
    (hext : getExtension (filepath.Base filePath) ≠ ".zip")
    (hsha : GenerateSHA256 w filePath = some sha)
    (hmime : GetMimeType w (getExtension filePath) = some contentType)
    (hkey : Index.get s.db sha = none)
    (hread : w.getErr (s.trace ++ [Event.hash filePath]) sha = false)
    (hput : w.putErr (s.trace ++ [Event.hash filePath, Event.get sha])
      (targetKey filePath info) filePath contentType = false)
    (hmarshal : w.marshal (recordOf filePath info sha contentType) = some metaBytes)
    (hset : w.setErr (s.trace ++ [Event.hash filePath, Event.get sha,
        Event.put (targetKey filePath info) filePath contentType])
      sha metaBytes = false) :
    (∃ s1, processFile w s filePath = Step.next s1 ∧
      s1.trace = s.trace ++ [Event.hash filePath, Event.get sha,
        Event.put (targetKey filePath info) filePath contentType,
        Event.set sha metaBytes] ∧
      putCalls s1.trace = putCalls s.trace ++
        [Event.put (targetKey filePath info) filePath contentType] ∧
      s1.db = Index.set s.db sha metaBytes ∧
      Index.get s1.db sha = some metaBytes ∧
      Index.count s1.db sha = 1 ∧
      (∀ key, key ≠ sha → Index.get s1.db key = Index.get s.db key)) ∧
    targetKey filePath info =
      getFilePath info ++ "/" ++
        addModTimeToFilename (filepath.Base filePath) (getModifyTime info) ∧
    (recordOf filePath info sha contentType).SHA = sha ∧
    (recordOf filePath info sha contentType).Name =
      addModTimeToFilename (filepath.Base filePath) (getModifyTime info) ∧
    (recordOf filePath info sha contentType).ContentType = contentType ∧
    (recordOf filePath info sha contentType).FilePath = getFilePath info ++ "/" ∧
    (recordOf filePath info sha contentType).ModifyTime = getModifyTime info ∧
    (∀ (isDir : Bool) (hour minute second : Nat),
      getFilePath ⟨isDir, ⟨2024, 1, 31, hour, minute, second⟩⟩ ++ "/" = "202401/") := by
  obtain ⟨body, hbody, -⟩ := GenerateSHA256_content w filePath sha hsha
  have h := processFile_indexed w s filePath info sha contentType metaBytes body
    GetError.notFound hstat hdir hext hbody hsha hmime
    (by rw [dbGet_notFound w (s.emit (Event.hash filePath)) sha hkey hread]) hput hmarshal hset
  refine ⟨⟨_, h, rfl, ?_, rfl, Index.get_set_same _ _ _, Index.count_set_same _ _ _, ?_⟩,
    rfl, rfl, rfl, rfl, rfl, rfl, ?_⟩
  · simp [putCalls, targetKey, remoteDir, storedName]
  · intro key hne
    exact Index.get_set_other s.db sha key metaBytes hne
  · intro isDir hour minute second
    simp only [getFilePath, Time.format200601]
    decide

/-- C3, at `/data/a.txt` in a fresh run. -/
theorem not_found_uploads_and_indexes_witness :
    (processFile (sampleWorld false false false) emptyState "/data/a.txt").state.trace =
        emptyState.trace ++ [Event.hash "/data/a.txt", Event.get "2cf24dba5fb0a30e",
          Event.put (targetKey "/data/a.txt" ⟨false, sampleTime⟩) "/data/a.txt"
            "text/plain; charset=utf-8",
          Event.set "2cf24dba5fb0a30e"
            "2cf24dba5fb0a30e|a-20240131153000.txt|text/plain; charset=utf-8|202401/|20240131153000"] ∧
      Index.get (processFile (sampleWorld false false false) emptyState "/data/a.txt").state.db
          "2cf24dba5fb0a30e" = some
        "2cf24dba5fb0a30e|a-20240131153000.txt|text/plain; charset=utf-8|202401/|20240131153000" ∧
      targetKey "/data/a.txt" ⟨false, sampleTime⟩ = "202401/a-20240131153000.txt" := by
  obtain ⟨⟨s1, h1, h2, -, -, h5, -, -⟩, -⟩ :=
    not_found_uploads_and_indexes (sampleWorld false false false) emptyState "/data/a.txt"
      ⟨false, sampleTime⟩ "2cf24dba5fb0a30e" "text/plain; charset=utf-8"
      "2cf24dba5fb0a30e|a-20240131153000.txt|text/plain; charset=utf-8|202401/|20240131153000"
      (by decide) (by decide) (by decide) (by decide) (by decide) (by decide) (by decide)
      (by decide) (by decide) (by decide)
  rw [h1]
  exact ⟨h2, h5, by decide⟩

/-- C7. When the upload of a file returns an error, the run ends there: the
index and the bucket are exactly as they were before the file, no index write
is made, and nothing of the rest of the enumeration is hashed, looked up or
uploaded (the calls of the run are those made before the file, then its hash,
its lookup and the failed upload). -/
theorem upload_failure_aborts (w : World) (s : State) (filePath : String) (info : FileInfo)
    (sha contentType : String) (e : GetError) (rest : List String)
    (hstat : w.stat filePath = some info) (hdir : info.isDir = false)
    (hext : getExtension (filepath.Base filePath) ≠ ".zip")
    (hsha : GenerateSHA256 w filePath = some sha)
    (hmime : GetMimeType w (getExtension filePath) = some contentType)
    (hget : (dbGet w (s.emit (Event.hash filePath)) sha).2 = Except.error e)
    (hput : w.putErr (s.trace ++ [Event.hash filePath, Event.get sha])
      (targetKey filePath info) filePath contentType = true) :
    (run w (filePath :: rest) s).2 = Outcome.returned ∧
      (run w (filePath :: rest) s).1.db = s.db ∧
      (run w (filePath :: rest) s).1.remote = s.remote ∧
      (run w (filePath :: rest) s).1.trace = s.trace ++ [Event.hash filePath, Event.get sha,
        Event.put (targetKey filePath info) filePath contentType] ∧
      setCalls (run w (filePath :: rest) s).1.trace = setCalls s.trace := by
  have h := processFile_put_error w s filePath info sha contentType e hstat hdir hext hsha
    hmime hget hput
  simp [run, h, setCalls, targetKey, remoteDir, storedName]

/-- C7, at `/data/a.txt` followed by two more files, uploads failing. -/
theorem upload_failure_aborts_witness :
    (run (sampleWorld false true false) ["/data/a.txt", "/data/other.txt", "/data/n.pdf"]
        emptyState).2 = Outcome.returned ∧
      (run (sampleWorld false true false) ["/data/a.txt", "/data/other.txt", "/data/n.pdf"]
        emptyState).1.db = [] ∧
      (run (sampleWorld false true false) ["/data/a.txt", "/data/other.txt", "/data/n.pdf"]
        emptyState).1.remote = [] ∧
      (run (sampleWorld false true false) ["/data/a.txt", "/data/other.txt", "/data/n.pdf"]
        emptyState).1.trace = [] ++ [Event.hash "/data/a.txt", Event.get "2cf24dba5fb0a30e",
          Event.put (targetKey "/data/a.txt" ⟨false, sampleTime⟩) "/data/a.txt"
            "text/plain; charset=utf-8"] ∧
      setCalls (run (sampleWorld false true false)
        ["/data/a.txt", "/data/other.txt", "/data/n.pdf"] emptyState).1.trace = setCalls [] :=
  upload_failure_aborts (sampleWorld false true false) emptyState "/data/a.txt"
    ⟨false, sampleTime⟩ "2cf24dba5fb0a30e" "text/plain; charset=utf-8" GetError.notFound
    ["/data/other.txt", "/data/n.pdf"]
    (by decide) (by decide) (by decide) (by decide) (by decide) rfl (by decide)

/-- C8. With an upload that fails, `main` logs and returns, so the process ends
with exit status 0; a file that cannot be read and an index write that fails
end it with status 1. -/
theorem upload_failure_exits_zero :
    (main (sampleWorld false true false) ["/data/a.txt"] false emptyState).2 = 0 ∧
      (run (sampleWorld false true false) ["/data/a.txt"] emptyState).2 = Outcome.returned ∧
      putCalls (main (sampleWorld false true false) ["/data/a.txt"] false emptyState).1.trace =
        [Event.put "202401/a-20240131153000.txt" "/data/a.txt" "text/plain; charset=utf-8"] ∧
      (main (sampleWorld false true false) ["/data/a.txt"] false emptyState).1.remote = [] ∧
      (main (sampleWorld false false false) ["/data/locked.txt"] false emptyState).2 = 1 ∧
      (main (sampleWorld false false true) ["/data/a.txt"] false emptyState).2 = 1 := by
  decide

/-- C9. With `db.Get` returning an error other than not-found at the lookup of
`/data/a.txt`, the run is not aborted: the else branch of the lookup is taken,
the file is uploaded, its record is written and the run finishes with status
0. -/
theorem lookup_failure_not_fatal :
    (dbGet (sampleWorld true false false) (emptyState.emit (Event.hash "/data/a.txt"))
        "2cf24dba5fb0a30e").2 = Except.error GetError.unavailable ∧
      (run (sampleWorld true false false) ["/data/a.txt"] emptyState).2 = Outcome.finished ∧
      (main (sampleWorld true false false) ["/data/a.txt"] false emptyState).2 = 0 ∧
      putCalls (run (sampleWorld true false false) ["/data/a.txt"] emptyState).1.trace =
        [Event.put "202401/a-20240131153000.txt" "/data/a.txt" "text/plain; charset=utf-8"] ∧
      setCalls (run (sampleWorld true false false) ["/data/a.txt"] emptyState).1.trace =
        [Event.set "2cf24dba5fb0a30e"
          "2cf24dba5fb0a30e|a-20240131153000.txt|text/plain; charset=utf-8|202401/|20240131153000"] :=
  ⟨rfl, by decide, by decide, by decide, by decide⟩

/-- C10. For a name without extension `getExtension` gives the empty string
and `GetMimeType` indexes its first byte: the call panics in every
environment, the run of `/data/README` ends there with exit status 2 and
makes no lookup; `/data/a.txt` after it is not processed. -/
theorem GetMimeType_panics_without_extension :
    getExtension "/data/README" = "" ∧
      (∀ w : World, GetMimeType w (getExtension "/data/README") = none) ∧
      (run (sampleWorld false false false) ["/data/README", "/data/a.txt"] emptyState).2 =
        Outcome.panicked ∧
      (run (sampleWorld false false false) ["/data/README", "/data/a.txt"]
        emptyState).1.trace = [Event.hash "/data/README"] ∧
      (main (sampleWorld false false false) ["/data/README", "/data/a.txt"] false
        emptyState).2 = 2 := by
  refine ⟨by decide, fun w => ?_, by decide, by decide, by decide⟩
  have h : getExtension "/data/README" = "" := by decide
  rw [h]
  rfl

/-! ## The naming policy -/

theorem specExt_of_no_dot (l : List Char) (h : '.' ∉ l) : specExt l = [] := by
  induction l with
  | nil => rfl
  | cons c rest ih =>
    have h1 : '.' ∉ rest := fun hm => h (List.mem_cons_of_mem _ hm)
    have h2 : ¬ c = '.' := fun hc => h (by simp [hc])
    simp [specExt, h1, h2]

theorem specExt_append_dot (l : List Char) : specExt (l ++ ['.']) = ['.'] := by
  induction l with
  | nil => rfl
  | cons c rest ih => simp [specExt, ih]

theorem specExt_append_other (l : List Char) (c : Char) (hc : c ≠ '.') :
    specExt (l ++ [c]) = if '.' ∈ l then specExt l ++ [c] else [] := by
  induction l with
  | nil => simp [specExt, hc]
  | cons d rest ih =>
    have hc1 : ¬ '.' = c := fun h => hc h.symm
    by_cases h1 : '.' ∈ rest
    · simp [specExt, h1, ih]
    · by_cases h2 : d = '.'
      · simp [specExt, h1, h2, hc1]
      · have h3 : ¬ '.' = d := fun h => h2 h.symm
        simp [specExt, h1, h2, hc1, h3]

/-- The backward scan on a name without separator finds the suffix from the
last dot. -/
theorem extScan_eq_specExt (r acc : List Char) (hr : ∀ c ∈ r, c ≠ '/') :
    filepath.extScan r acc = if '.' ∈ r then specExt r.reverse ++ acc else [] := by
  induction r generalizing acc with
  | nil => rfl
  | cons c rest ih =>
    have hc : ¬ c = '/' := hr c (List.mem_cons_self _ _)
    have hrest : ∀ d ∈ rest, d ≠ '/' := fun d hd => hr d (List.mem_cons_of_mem _ hd)
    by_cases h1 : c = '.'
    · subst h1
      simp [filepath.extScan, specExt_append_dot]
    · have h2 : ¬ '.' = c := fun h => h1 h.symm
      rw [filepath.extScan, if_neg hc, if_neg h1, ih _ hrest, List.reverse_cons,
        specExt_append_other _ _ h1]
      by_cases h3 : '.' ∈ rest
      · simp [h3]
      · simp [h3, h2]

theorem Ext_eq_specExt (f : String) (hf : ∀ c ∈ f.data, c ≠ '/') :
    (filepath.Ext f).data = specExt f.data := by
  unfold filepath.Ext
  rw [extScan_eq_specExt _ _ (fun c hc => hf c (List.mem_reverse.mp hc))]
  by_cases h : '.' ∈ f.data
  · simp [h]
  · simp [h, specExt_of_no_dot _ h]

theorem specStem_append_specExt (l : List Char) : specStem l ++ specExt l = l := by
  induction l with
  | nil => rfl
  | cons c rest ih =>
    by_cases h1 : '.' ∈ rest
    · simp [specStem, specExt, h1, ih]
    · by_cases h2 : c = '.'
      · simp [specStem, specExt, h1, h2]
      · simp [specStem, specExt, h1, h2]

theorem take_specStem (l : List Char) :
    l.take (l.length - (specExt l).length) = specStem l := by
  have h := specStem_append_specExt l
  have hlen : l.length - (specExt l).length = (specStem l).length := by
    have := congrArg List.length h
    simp only [List.length_append] at this
    omega
  rw [hlen]
  have h2 := List.take_left (specStem l) (specExt l)
  rwa [h] at h2

/-- C5. For a base filename (no path separator) and any timestamp string,
`addModTimeToFilename` gives stem, `-`, timestamp, extension, the extension
being the suffix from the last dot (empty when there is none) and the stem the
rest of the name; `report.pdf` gives `report-20240131153000.pdf` and `README`
gives `README-20240131153000`. -/
theorem addModTimeToFilename_spec (f ts : String) (hf : ∀ c ∈ f.data, c ≠ '/') :
    addModTimeToFilename f ts = specRename f ts ∧
      (filepath.Ext f).data = specExt f.data ∧
      specStem f.data ++ specExt f.data = f.data ∧
      ('.' ∉ f.data → addModTimeToFilename f ts = f ++ "-" ++ ts) ∧
      addModTimeToFilename "report.pdf" "20240131153000" = "report-20240131153000.pdf" ∧
      addModTimeToFilename "README" "20240131153000" = "README-20240131153000" := by
  have hext := Ext_eq_specExt f hf
  have hmain : addModTimeToFilename f ts = specRename f ts := by
    unfold addModTimeToFilename specRename
    simp only [hext, take_specStem]
    congr 1
    exact String.ext hext
  refine ⟨hmain, hext, specStem_append_specExt _, ?_, by decide, by decide⟩
  intro hdot
  rw [hmain]
  unfold specRename
  have h1 : specExt f.data = [] := specExt_of_no_dot _ hdot
  have h2 : specStem f.data = f.data := by
    have := specStem_append_specExt f.data
    rwa [h1, List.append_nil] at this
  apply String.ext
  simp [h1, h2]

/-- C5, at `photo.tar.gz`. -/
theorem addModTimeToFilename_spec_witness :
    addModTimeToFilename "photo.tar.gz" "20240131153000" =
        specRename "photo.tar.gz" "20240131153000" ∧
      specRename "photo.tar.gz" "20240131153000" = "photo.tar-20240131153000.gz" :=
  ⟨(addModTimeToFilename_spec "photo.tar.gz" "20240131153000" (by decide)).1, by decide⟩

/-! ## Object keys -/

/-- What the backward scan returns: nothing, or the dot it stopped at with the
bytes passed before it, none of them a dot or a separator. -/
theorem extScan_shape (r acc : List Char) :
    filepath.extScan r acc = [] ∨
      ∃ pre post, r = pre ++ '.' :: post ∧ (∀ c ∈ pre, c ≠ '.' ∧ c ≠ '/') ∧
        filepath.extScan r acc = '.' :: (pre.reverse ++ acc) := by
  induction r generalizing acc with
  | nil => exact Or.inl rfl
  | cons c rest ih =>
    by_cases h1 : c = '/'
    · exact Or.inl (by simp [filepath.extScan, h1])
    · by_cases h2 : c = '.'
      · exact Or.inr ⟨[], rest, by simp [h2], by simp, by simp [filepath.extScan, h2]⟩
      · rcases ih (c :: acc) with h | ⟨pre, post, hr, hpre, hres⟩
        · exact Or.inl (by simp [filepath.extScan, h1, h2, h])
        · refine Or.inr ⟨c :: pre, post, by simp [hr], ?_, ?_⟩
          · intro d hd
            rcases List.mem_cons.mp hd with hd | hd
            · exact hd ▸ ⟨h2, h1⟩
            · exact hpre d hd
          · simp [filepath.extScan, h1, h2, hres]

/-- When the backward scan returns nothing, every dot it could have met lies
behind a separator. -/
theorem extScan_nil (r acc : List Char) (h : filepath.extScan r acc = []) :
    ∀ pre post, r = pre ++ '.' :: post → '/' ∈ pre := by
  induction r generalizing acc with
  | nil => intro pre post hr; simp at hr
  | cons c rest ih =>
    intro pre post hr
    by_cases h1 : c = '/'
    · cases pre with
      | nil => simp [h1] at hr
      | cons d pre1 =>
        simp only [List.cons_append, List.cons.injEq] at hr
        simp [← hr.1, h1]
    · by_cases h2 : c = '.'
      · simp [filepath.extScan, h2] at h
      · cases pre with
        | nil => simp at hr; exact absurd hr.1 h2
        | cons d pre1 =>
          simp only [List.cons_append, List.cons.injEq] at hr
          have h3 : filepath.extScan rest (c :: acc) = [] := by
            simpa [filepath.extScan, h1, h2] using h
          exact List.mem_cons_of_mem _ (ih (c :: acc) h3 pre1 post hr.2)

/-- Anatomy of a renamed file: the name splits into a stem and the extension,
the timestamp goes between them, and the extension is either empty, every dot
of the name then being followed by a separator, or a dot followed by bytes
that are neither dots nor separators. -/
theorem addModTimeToFilename_shape (name ts : String) :
    ∃ stem ext, name.data = stem ++ ext ∧
      (addModTimeToFilename name ts).data = stem ++ '-' :: (ts.data ++ ext) ∧
      ((ext = [] ∧ ∀ a b, name.data = a ++ '.' :: b → '/' ∈ b) ∨
        ∃ e, ext = '.' :: e ∧ ∀ c ∈ e, c ≠ '.' ∧ c ≠ '/') := by
  rcases hs : extScan_shape name.data.reverse [] with h | ⟨pre, post, hr, hpre, hres⟩
  · refine ⟨name.data, [], by simp, ?_, Or.inl ⟨rfl, ?_⟩⟩
    · simp [addModTimeToFilename, filepath.Ext, h]
    · intro a b hab
      have h2 := extScan_nil _ _ h b.reverse a.reverse (by simp [hab])
      exact List.mem_reverse.mp h2
  · have hname : name.data = post.reverse ++ '.' :: pre.reverse := by
      have := congrArg List.reverse hr
      simpa using this
    refine ⟨post.reverse, '.' :: pre.reverse, hname, ?_, Or.inr ⟨pre.reverse, rfl, ?_⟩⟩
    · have hlen : name.data.length - (pre.length + 1) = post.reverse.length := by
        rw [hname]; simp
      simp only [addModTimeToFilename, filepath.Ext, hres, List.append_nil, List.length_cons,
        List.length_reverse, String.data_append, hlen]
      rw [hname, List.take_left' (by simp)]
      simp
    · intro c hc
      exact hpre c (List.mem_reverse.mp hc)

/-- Two renamed files are equal only for equal names and equal timestamps,
the timestamps being of one length and free of dots. -/
theorem addModTimeToFilename_injective (name1 name2 ts1 ts2 : String)
    (hlen : ts1.data.length = ts2.data.length)
    (hd1 : '.' ∉ ts1.data) (hd2 : '.' ∉ ts2.data)
    (heq : addModTimeToFilename name1 ts1 = addModTimeToFilename name2 ts2) :
    name1 = name2 ∧ ts1 = ts2 := by
  obtain ⟨stem1, ext1, hn1, hr1, hx1⟩ := addModTimeToFilename_shape name1 ts1
  obtain ⟨stem2, ext2, hn2, hr2, hx2⟩ := addModTimeToFilename_shape name2 ts2
  have hR : stem1 ++ '-' :: (ts1.data ++ ext1) = stem2 ++ '-' :: (ts2.data ++ ext2) := by
    rw [← hr1, ← hr2, heq]
  -- a dotted extension on one side forces the same extension on the other side
  have key : ∀ (sa sb ta tb ea xb : List Char) (nb : List Char),
      sa ++ '-' :: (ta ++ ('.' :: ea)) = sb ++ '-' :: (tb ++ xb) →
      '.' ∉ tb → (∀ c ∈ ea, c ≠ '.' ∧ c ≠ '/') → nb = sb ++ xb →
      ((xb = [] ∧ ∀ a b, nb = a ++ '.' :: b → '/' ∈ b) ∨
        ∃ e, xb = '.' :: e ∧ ∀ c ∈ e, c ≠ '.' ∧ c ≠ '/') →
      xb = '.' :: ea := by
    intro sa sb ta tb ea xb nb hE htb hea hnb hxb
    have hsufA : ('.' :: ea) <:+ (sa ++ '-' :: (ta ++ ('.' :: ea))) :=
      ⟨sa ++ '-' :: ta, by simp⟩
    rcases hxb with ⟨hnil, hall⟩ | ⟨e, he, hall⟩
    · subst hnil
      simp only [List.append_nil] at hE hnb
      have hsufB : ('-' :: tb) <:+ (sa ++ '-' :: (ta ++ ('.' :: ea))) := ⟨sb, hE.symm⟩
      rcases List.suffix_or_suffix_of_suffix hsufA hsufB with ⟨t, ht⟩ | ⟨t, ht⟩
      · have hmem : '.' ∈ '-' :: tb := by rw [← ht]; simp
        rcases List.mem_cons.mp hmem with h | h
        · exact absurd h (by decide)
        · exact absurd h htb
      · cases t with
        | nil =>
          simp only [List.nil_append, List.cons.injEq] at ht
          exact absurd ht.1 (by decide)
        | cons d t1 =>
          simp only [List.cons_append, List.cons.injEq] at ht
          obtain ⟨hd, ht1⟩ := ht
          subst hd
          -- ea = t1 ++ '-' :: tb, so the name on the other side ends in a dot and `t1`
          have hsb : sa ++ '-' :: ta ++ '.' :: t1 = sb := by
            have h2 : (sa ++ '-' :: ta ++ '.' :: t1) ++ '-' :: tb = sb ++ '-' :: tb := by
              rw [← hE, ← ht1]; simp
            exact List.append_cancel_right h2
          have hslash := hall (sa ++ '-' :: ta) t1 (by rw [hnb, ← hsb])
          have := (hea '/' (by rw [← ht1]; simp [hslash])).2
          exact absurd rfl this
    · subst he
      have hsufB : ('.' :: e) <:+ (sa ++ '-' :: (ta ++ ('.' :: ea))) :=
        ⟨sb ++ '-' :: tb, by rw [hE]; simp⟩
      rcases List.suffix_or_suffix_of_suffix hsufA hsufB with ⟨t, ht⟩ | ⟨t, ht⟩
      · cases t with
        | nil => simpa using ht.symm
        | cons d t1 =>
          simp only [List.cons_append, List.cons.injEq] at ht
          have := (hall '.' (by rw [← ht.2]; simp)).1
          exact absurd rfl this
      · cases t with
        | nil => simpa using ht
        | cons d t1 =>
          simp only [List.cons_append, List.cons.injEq] at ht
          have := (hea '.' (by rw [← ht.2]; simp)).1
          exact absurd rfl this
  have hext : ext1 = ext2 := by
    rcases hx1 with ⟨hnil1, hall1⟩ | ⟨e1, he1, hall1⟩
    · rcases hx2 with ⟨hnil2, -⟩ | ⟨e2, he2, hall2⟩
      · rw [hnil1, hnil2]
      · subst he2
        have := key stem2 stem1 ts2.data ts1.data e2 ext1 name1.data hR.symm hd1 hall2 hn1
          (Or.inl ⟨hnil1, hall1⟩)
        rw [this]
    · subst he1
      exact (key stem1 stem2 ts1.data ts2.data e1 ext2 name2.data hR hd2 hall1 hn2 hx2).symm
  subst hext
  have h3 : (stem1 ++ ['-']) ++ ts1.data = (stem2 ++ ['-']) ++ ts2.data := by
    have h4 : (stem1 ++ '-' :: ts1.data) ++ ext1 = (stem2 ++ '-' :: ts2.data) ++ ext1 := by
      simpa using hR
    simpa using List.append_cancel_right h4
  obtain ⟨h5, h6⟩ := List.append_inj' h3 hlen
  have h7 : stem1 = stem2 := List.append_cancel_right h5
  exact ⟨String.ext (by rw [hn1, hn2, h7]), String.ext h6⟩

theorem digitChar_ne (d : Nat) : digitChar d ≠ '.' ∧ digitChar d ≠ '/' := by
  unfold digitChar
  split <;> exact ⟨by decide, by decide⟩

theorem decimal_chars (fuel u : Nat) (acc : List Char)
    (hacc : ∀ c ∈ acc, c ≠ '.' ∧ c ≠ '/') :
    ∀ c ∈ decimal fuel u acc, c ≠ '.' ∧ c ≠ '/' := by
  induction fuel generalizing u acc with
  | zero => simpa [decimal] using hacc
  | succ n ih =>
    have h1 : ∀ c ∈ digitChar (u % 10) :: acc, c ≠ '.' ∧ c ≠ '/' := by
      intro c hc
      rcases List.mem_cons.mp hc with h | h
      · exact h ▸ digitChar_ne _
      · exact hacc c h
    unfold decimal
    by_cases h2 : u / 10 = 0
    · simpa [h2] using h1
    · simpa [h2] using ih (u / 10) _ h1

theorem appendInt_chars (x : Int) (width : Nat) :
    ∀ c ∈ appendInt x width, c ≠ '.' ∧ c ≠ '/' := by
  have hsign : ∀ c ∈ (if x < 0 then ['-'] else [] : List Char), c ≠ '.' ∧ c ≠ '/' := by
    intro c hc
    split at hc
    · simp only [List.mem_singleton] at hc
      exact hc ▸ ⟨by decide, by decide⟩
    · simp at hc
  intro c hc
  unfold appendInt at hc
  simp only at hc
  split at hc
  · rcases List.mem_append.mp hc with h | h
    · exact hsign c h
    · simp only [List.mem_cons, List.mem_singleton, List.not_mem_nil, or_false] at h
      rcases h with h | h <;> exact h ▸ digitChar_ne _
  · rcases List.mem_append.mp hc with h | h
    · rcases List.mem_append.mp h with h | h
      · exact hsign c h
      · rw [List.mem_replicate] at h
        exact h.2 ▸ ⟨by decide, by decide⟩
    · exact decimal_chars _ _ [] (by simp) c h

theorem appendInt_two_length (n : Nat) (h : n < 100) :
    (appendInt (n : Int) 2).length = 2 := by
  have h1 : ¬ ((n : Int) < 0) := by omega
  simp [appendInt, h, h1]

theorem split_at_first (x : Char) (a1 a2 b1 b2 : List Char) (h1 : x ∉ a1) (h2 : x ∉ a2)
    (h : a1 ++ x :: b1 = a2 ++ x :: b2) : a1 = a2 ∧ b1 = b2 := by
  induction a1 generalizing a2 with
  | nil =>
    cases a2 with
    | nil => simpa using h
    | cons d a3 =>
      simp only [List.nil_append, List.cons_append, List.cons.injEq] at h
      exact absurd (by simp [h.1]) h2
  | cons c a3 ih =>
    cases a2 with
    | nil =>
      simp only [List.nil_append, List.cons_append, List.cons.injEq] at h
      exact absurd (by simp [h.1]) h1
    | cons d a4 =>
      simp only [List.cons_append, List.cons.injEq] at h
      have h3 := ih a4 (fun hm => h1 (List.mem_cons_of_mem _ hm))
        (fun hm => h2 (List.mem_cons_of_mem _ hm)) h.2
      exact ⟨by rw [h.1, h3.1], h3.2⟩

theorem getFilePath_chars (info : FileInfo) : '/' ∉ (getFilePath info).data := by
  intro h
  simp only [getFilePath, Time.format200601, List.mem_append] at h
  rcases h with h | h <;> exact absurd rfl (appendInt_chars _ _ _ h).2

theorem getModifyTime_chars (info : FileInfo) : '.' ∉ (getModifyTime info).data := by
  intro h
  simp only [getModifyTime, Time.format20060102150405, List.mem_append] at h
  rcases h with ((((h | h) | h) | h) | h) | h <;>
    exact absurd rfl (appendInt_chars _ _ _ h).1

theorem getModifyTime_length (info : FileInfo) (hv : info.modTime.Valid) :
    (getModifyTime info).data.length = (appendInt info.modTime.year 4).length + 10 := by
  obtain ⟨⟨-, h1⟩, ⟨-, h2⟩, h3, h4, h5⟩ := hv
  simp only [getModifyTime, Time.format20060102150405, List.length_append]
  rw [appendInt_two_length _ (by omega), appendInt_two_length _ (by omega),
    appendInt_two_length _ (by omega), appendInt_two_length _ (by omega),
    appendInt_two_length _ (by omega)]

/-- The object key determines the base name and the formatted modification
time it was built from. -/
theorem targetKey_injective (p1 p2 : String) (info1 info2 : FileInfo)
    (hv1 : info1.modTime.Valid) (hv2 : info2.modTime.Valid)
    (heq : targetKey p1 info1 = targetKey p2 info2) :
    filepath.Base p1 = filepath.Base p2 ∧ getModifyTime info1 = getModifyTime info2 := by
  have hdata := congrArg String.data heq
  simp only [targetKey, remoteDir, String.data_append] at hdata
  simp only [List.append_assoc, List.singleton_append] at hdata
  obtain ⟨hdir, hname⟩ := split_at_first '/' _ _ _ _ (getFilePath_chars info1)
    (getFilePath_chars info2) hdata
  have hyear : appendInt info1.modTime.year 4 = appendInt info2.modTime.year 4 := by
    simp only [getFilePath, Time.format200601] at hdir
    have hm1 := appendInt_two_length info1.modTime.month (by have := hv1.1.2; omega)
    have hm2 := appendInt_two_length info2.modTime.month (by have := hv2.1.2; omega)
    exact (List.append_inj' hdir (by rw [hm1, hm2])).1
  have hlen : (getModifyTime info1).data.length = (getModifyTime info2).data.length := by
    rw [getModifyTime_length info1 hv1, getModifyTime_length info2 hv2, hyear]
  exact addModTimeToFilename_injective _ _ _ _ hlen (getModifyTime_chars info1)
    (getModifyTime_chars info2) (String.ext hname)

/-- Every way an iteration can go, with the state it ends in. -/
theorem processFile_cases (w : World) (s : State) (filePath : String) :
    (reaches w filePath = false ∧ processFile w s filePath = Step.next s) ∨
    (reaches w filePath = true ∧ ∃ info, w.stat filePath = some info ∧
      ((GenerateSHA256 w filePath = none ∧
          processFile w s filePath = Step.halt (s.emit (Event.hash filePath)) Outcome.fatal) ∨
        ∃ sha, GenerateSHA256 w filePath = some sha ∧
          ((GetMimeType w (getExtension filePath) = none ∧
              processFile w s filePath =
                Step.halt (s.emit (Event.hash filePath)) Outcome.panicked) ∨
            ∃ contentType, GetMimeType w (getExtension filePath) = some contentType ∧
              ((∃ value, (dbGet w (s.emit (Event.hash filePath)) sha).2 = Except.ok value ∧
                  processFile w s filePath =
                    Step.next ⟨s.db, s.remote,
                      s.trace ++ [Event.hash filePath, Event.get sha], s.basePath⟩) ∨
                ∃ e, (dbGet w (s.emit (Event.hash filePath)) sha).2 = Except.error e ∧
                  (processFile w s filePath =
                      Step.halt ⟨s.db, s.remote,
                        s.trace ++ [Event.hash filePath, Event.get sha,
                          Event.put (targetKey filePath info) filePath contentType],
                        remoteDir info⟩ Outcome.returned ∨
                    ∃ body, w.content filePath = some body ∧
                      (processFile w s filePath =
                          Step.halt ⟨s.db,
                            Remote.put s.remote (targetKey filePath info)
                              ⟨body, objectContentType w filePath contentType⟩,
                            s.trace ++ [Event.hash filePath, Event.get sha,
                              Event.put (targetKey filePath info) filePath contentType],
                            remoteDir info⟩ Outcome.fatal ∨
                        ∃ metaBytes,
                          w.marshal (recordOf filePath info sha contentType) = some metaBytes ∧
                          (processFile w s filePath =
                              Step.halt ⟨s.db,
                                Remote.put s.remote (targetKey filePath info)
                                  ⟨body, objectContentType w filePath contentType⟩,
                                s.trace ++ [Event.hash filePath, Event.get sha,
                                  Event.put (targetKey filePath info) filePath contentType,
                                  Event.set sha metaBytes],
                                remoteDir info⟩ Outcome.fatal ∨
                            processFile w s filePath =
                              Step.next ⟨Index.set s.db sha metaBytes,
                                Remote.put s.remote (targetKey filePath info)
                                  ⟨body, objectContentType w filePath contentType⟩,
                                s.trace ++ [Event.hash filePath, Event.get sha,
                                  Event.put (targetKey filePath info) filePath contentType,
                                  Event.set sha metaBytes],
                                remoteDir info⟩))))))) := by
  cases hstat : w.stat filePath with
  | none => exact Or.inl ⟨by simp [reaches, hstat], by simp [processFile, hstat]⟩
  | some info =>
    cases hdir : info.isDir with
    | true => exact Or.inl ⟨by simp [reaches, hstat, hdir], by simp [processFile, hstat, hdir]⟩
    | false =>
      by_cases hzip : getExtension (filepath.Base filePath) = ".zip"
      · exact Or.inl ⟨by simp [reaches, hstat, hzip], by simp [processFile, hstat, hzip]⟩
      · refine Or.inr ⟨by simp [reaches, hstat, hdir, hzip], info, rfl, ?_⟩
        cases hsha : GenerateSHA256 w filePath with
        | none =>
          exact Or.inl ⟨rfl, by simp [processFile, hstat, hdir, hsha, if_neg (Ne.symm hzip)]⟩
        | some sha =>
          refine Or.inr ⟨sha, rfl, ?_⟩
          cases hmime : GetMimeType w (getExtension filePath) with
          | none =>
            exact Or.inl ⟨rfl,
              by simp [processFile, hstat, hdir, hsha, hmime, if_neg (Ne.symm hzip)]⟩
          | some contentType =>
            refine Or.inr ⟨contentType, rfl, ?_⟩
            have hb := processFile_upload_branch w s filePath info sha contentType hstat hdir
              hzip hsha hmime
            have h1 := dbGet_fst w (s.emit (Event.hash filePath)) sha
            obtain ⟨body, hbody, -⟩ := GenerateSHA256_content w filePath sha hsha
            rcases hd : dbGet w (s.emit (Event.hash filePath)) sha with ⟨s2, r⟩
            rw [hd] at h1 hb
            simp only at h1
            subst h1
            cases r with
            | ok value =>
              exact Or.inl ⟨value, rfl, by rw [hb]; simp [State.emit]⟩
            | error e =>
              refine Or.inr ⟨e, rfl, ?_⟩
              simp only at hb
              by_cases hput : w.putErr (s.trace ++ [Event.hash filePath, Event.get sha])
                  (targetKey filePath info) filePath contentType = true
              · left
                rw [hb]
                simp only [targetKey, remoteDir, storedName] at hput
                simp [FPutObject, State.emit, hbody, hput, targetKey, remoteDir, storedName]
              · refine Or.inr ⟨body, hbody, ?_⟩
                simp only [targetKey, remoteDir, storedName] at hput
                cases hmar : w.marshal (recordOf filePath info sha contentType) with
                | none =>
                  left
                  rw [hb]
                  simp only [recordOf, remoteDir, storedName] at hmar
                  simp [FPutObject, State.emit, hbody, hput, hmar, targetKey, remoteDir,
                    storedName]
                | some metaBytes =>
                  refine Or.inr ⟨metaBytes, rfl, ?_⟩
                  simp only [recordOf, remoteDir, storedName] at hmar
                  by_cases hset : w.setErr (s.trace ++ [Event.hash filePath, Event.get sha,
                      Event.put (targetKey filePath info) filePath contentType])
                      sha metaBytes = true
                  · left
                    rw [hb]
                    simp only [targetKey, remoteDir, storedName] at hset
                    simp [FPutObject, dbSet, State.emit, hbody, hput, hmar, hset, targetKey,
                      remoteDir, storedName]
                  · right
                    rw [hb]
                    simp only [targetKey, remoteDir, storedName] at hset
                    simp [FPutObject, dbSet, State.emit, hbody, hput, hmar, hset, targetKey,
                      remoteDir, storedName]

/-- Every upload call of an iteration carries the path of its file and the
object key built from its base name and modification time. -/
theorem put_in_callsOf (w : World) (s : State) (filePath : String) (info : FileInfo)
    (key localPath contentType : String)
    (hstat : w.stat filePath = some info)
    (hcall : Event.put key localPath contentType ∈ callsOf w s filePath) :
    key = targetKey filePath info ∧ localPath = filePath := by
  unfold callsOf at hcall
  rcases processFile_cases w s filePath with ⟨-, h⟩ | ⟨-, info1, hstat1, h⟩
  · simp [h, Step.state] at hcall
  · have hinfo : info1 = info := by
      rw [hstat] at hstat1
      exact (Option.some.inj hstat1).symm
    subst hinfo
    rcases h with ⟨-, h⟩ | ⟨sha, -, h⟩
    · simp [h, Step.state, State.emit] at hcall
    · rcases h with ⟨-, h⟩ | ⟨ctype, -, h⟩
      · simp [h, Step.state, State.emit] at hcall
      · rcases h with ⟨v, -, h⟩ | ⟨e, -, h⟩
        · simp [h, Step.state] at hcall
        · rcases h with h | ⟨body, -, h⟩
          · simp [h, Step.state] at hcall
            exact ⟨hcall.1, hcall.2.1⟩
          · rcases h with h | ⟨mb, -, h⟩
            · simp [h, Step.state] at hcall
              exact ⟨hcall.1, hcall.2.1⟩
            · rcases h with h | h
              · simp [h, Step.state] at hcall
                exact ⟨hcall.1, hcall.2.1⟩
              · simp [h, Step.state] at hcall
                exact ⟨hcall.1, hcall.2.1⟩

/-- C6, refuted: `/data/other.txt` and `/x/other.txt` have different contents and
fingerprints, the same base name and the same modification second; both are
uploaded under the one key `202401/other-20240131153000.txt`, the second
upload replaces the object of the first, and both records name that key. -/
theorem different_content_same_key :
    GenerateSHA256 (sampleWorld false false false) "/data/other.txt" ≠
        GenerateSHA256 (sampleWorld false false false) "/x/other.txt" ∧
      putCalls (run (sampleWorld false false false) ["/data/other.txt", "/x/other.txt"]
          emptyState).1.trace =
        [Event.put "202401/other-20240131153000.txt" "/data/other.txt"
            "text/plain; charset=utf-8",
          Event.put "202401/other-20240131153000.txt" "/x/other.txt"
            "text/plain; charset=utf-8"] ∧
      (run (sampleWorld false false false) ["/data/other.txt", "/x/other.txt"]
          emptyState).1.remote =
        [("202401/other-20240131153000.txt", ⟨helloBytes, "text/plain; charset=utf-8"⟩)] ∧
      (run (sampleWorld false false false) ["/data/other.txt", "/x/other.txt"]
          emptyState).1.db =
        [("2cf24dba5fb0a30e",
            "2cf24dba5fb0a30e|other-20240131153000.txt|text/plain; charset=utf-8|202401/|20240131153000"),
          ("4bf5122f344554c5",
            "4bf5122f344554c5|other-20240131153000.txt|text/plain; charset=utf-8|202401/|20240131153000")] := by
  decide

/-- C6, amended. Object keys are unique per base name and modification second:
when two iterations each make an upload call, the keys they pass are the keys
built from the base name and the modification time of their files, and they
differ whenever the base names differ or the modification times formatted
`YYYYMMDDHHMMSS` differ, whatever the contents. -/
theorem upload_keys_differ (w : World) (s1 s2 : State) (p1 p2 : String)
    (info1 info2 : FileInfo) (k1 k2 f1 f2 c1 c2 : String)
    (hstat1 : w.stat p1 = some info1) (hstat2 : w.stat p2 = some info2)
    (hv1 : info1.modTime.Valid) (hv2 : info2.modTime.Valid)
    (hcall1 : Event.put k1 f1 c1 ∈ callsOf w s1 p1)
    (hcall2 : Event.put k2 f2 c2 ∈ callsOf w s2 p2)
    (hne : filepath.Base p1 ≠ filepath.Base p2 ∨ getModifyTime info1 ≠ getModifyTime info2) :
    k1 = targetKey p1 info1 ∧ k2 = targetKey p2 info2 ∧ k1 ≠ k2 := by
  obtain ⟨hk1, -⟩ := put_in_callsOf w s1 p1 info1 k1 f1 c1 hstat1 hcall1
  obtain ⟨hk2, -⟩ := put_in_callsOf w s2 p2 info2 k2 f2 c2 hstat2 hcall2
  refine ⟨hk1, hk2, ?_⟩
  intro heq
  rw [hk1, hk2] at heq
  obtain ⟨h1, h2⟩ := targetKey_injective p1 p2 info1 info2 hv1 hv2 heq
  rcases hne with h | h
  · exact h h1
  · exact h h2

/-- C6 amended, at `/data/a.txt` and `/data/other.txt`. -/
theorem upload_keys_differ_witness :
    "202401/a-20240131153000.txt" = targetKey "/data/a.txt" ⟨false, sampleTime⟩ ∧
      "202401/other-20240131153000.txt" = targetKey "/data/other.txt" ⟨false, sampleTime⟩ ∧
      "202401/a-20240131153000.txt" ≠ "202401/other-20240131153000.txt" :=
  upload_keys_differ (sampleWorld false false false) emptyState emptyState
    "/data/a.txt" "/data/other.txt" ⟨false, sampleTime⟩ ⟨false, sampleTime⟩
    "202401/a-20240131153000.txt" "202401/other-20240131153000.txt"
    "/data/a.txt" "/data/other.txt" "text/plain; charset=utf-8" "text/plain; charset=utf-8"
    (by decide) (by decide) (by decide) (by decide) (by decide) (by decide)
    (Or.inl (by decide))

/-! ## Deduplication -/

theorem Index.count_set_other (db : Index) (k key value : String) (hne : key ≠ k) :
    Index.count (Index.set db k value) key = Index.count db key := by
  have h1 : ¬ k = key := fun h => hne h.symm
  unfold Index.count Index.set
  rw [List.filter_cons_of_neg (by simp [h1]), List.filter_filter]
  congr 1
  apply List.filter_congr
  intro e _
  by_cases h2 : e.1 = key
  · have h3 : ¬ e.1 = k := fun h => hne (h2.symm.trans h)
    simp [h2, h3, hne]
  · simp [h2]

theorem dbGet_ok (w : World) (s : State) (key value : String)
    (h : (dbGet w s key).2 = Except.ok value) : Index.get s.db key = some value := by
  unfold dbGet at h
  split at h
  · simp at h
  · split at h
    · rename_i v hv
      simp only [Except.ok.injEq] at h
      rw [hv, h]
    · simp at h

theorem dbGet_error (w : World) (s : State) (key : String) (e : GetError)
    (hread : ∀ t k, w.getErr t k = false)
    (h : (dbGet w s key).2 = Except.error e) : Index.get s.db key = none := by
  unfold dbGet at h
  rw [hread] at h
  cases hk : Index.get s.db key with
  | none => rfl
  | some v => simp [hk] at h

theorem uploadsOf_append (w : World) (sha : String) (t evs : List Event) :
    uploadsOf w sha (t ++ evs) = uploadsOf w sha t ++ uploadsOf w sha evs := by
  simp [uploadsOf]

/-- A fingerprint already indexed stays so over an iteration that goes on to
the next file, without a new upload for it. -/
theorem Stored_step (w : World) (sha : String) (n : Nat) (s s1 : State) (filePath : String)
    (hread : ∀ t k, w.getErr t k = false) (hs : Stored w sha n s)
    (hstep : processFile w s filePath = Step.next s1) : Stored w sha n s1 := by
  obtain ⟨⟨value, hval⟩, hcount, hup⟩ := hs
  rcases processFile_cases w s filePath with ⟨-, h⟩ | ⟨-, info, -, h⟩
  · rw [h] at hstep
    cases hstep
    exact ⟨⟨value, hval⟩, hcount, hup⟩
  · rcases h with ⟨-, h⟩ | ⟨sha1, hsha1, h⟩
    · rw [h] at hstep; cases hstep
    · rcases h with ⟨-, h⟩ | ⟨ctype, -, h⟩
      · rw [h] at hstep; cases hstep
      · rcases h with ⟨v, -, h⟩ | ⟨e, hget, h⟩
        · rw [h] at hstep
          cases hstep
          refine ⟨⟨value, hval⟩, hcount, ?_⟩
          simp only [uploadsOf_append, List.length_append, hup]
          simp [uploadsOf]
        · have hnone := dbGet_error w _ sha1 e hread hget
          have hne : sha ≠ sha1 := by
            intro heq
            subst heq
            simp only [State.emit] at hnone
            rw [hval] at hnone
            cases hnone
          rcases h with h | ⟨body, -, h⟩
          · rw [h] at hstep; cases hstep
          · rcases h with h | ⟨mb, -, h⟩
            · rw [h] at hstep; cases hstep
            · rcases h with h | h
              · rw [h] at hstep; cases hstep
              · rw [h] at hstep
                cases hstep
                refine ⟨⟨value, ?_⟩, ?_, ?_⟩
                · simp only
                  rw [Index.get_set_other _ _ _ _ hne, hval]
                · simp only
                  rw [Index.count_set_other _ _ _ _ hne, hcount]
                · have hno : ¬ (sha1 = sha) := fun h => hne h.symm
                  simp only [uploadsOf_append, List.length_append, hup]
                  simp [uploadsOf, hsha1, hno]

/-- Over an iteration that goes on to the next file, a fingerprint not yet
indexed gets its one upload and its one record exactly when the file is hashed
to it. -/
theorem Fresh_step (w : World) (sha : String) (n : Nat) (s s1 : State) (filePath : String)
    (hs : Fresh w sha n s)
    (hstep : processFile w s filePath = Step.next s1) :
    (eligible w sha filePath = true → Stored w sha n s1) ∧
      (eligible w sha filePath = false → Fresh w sha n s1) := by
  obtain ⟨hnone, hup⟩ := hs
  rcases processFile_cases w s filePath with ⟨hr, h⟩ | ⟨hr, info, -, h⟩
  · rw [h] at hstep
    cases hstep
    exact ⟨fun he => by simp [eligible, hr] at he, fun _ => ⟨hnone, hup⟩⟩
  · rcases h with ⟨-, h⟩ | ⟨sha1, hsha1, h⟩
    · rw [h] at hstep; cases hstep
    · rcases h with ⟨-, h⟩ | ⟨ctype, -, h⟩
      · rw [h] at hstep; cases hstep
      · rcases h with ⟨v, hget, h⟩ | ⟨e, hget, h⟩
        · have hsome := dbGet_ok w _ sha1 v hget
          simp only [State.emit] at hsome
          have hne : ¬ (sha1 = sha) := by
            intro heq
            subst heq
            rw [hnone] at hsome
            cases hsome
          rw [h] at hstep
          cases hstep
          refine ⟨fun he => by simp [eligible, hsha1, hne] at he, fun _ => ⟨hnone, ?_⟩⟩
          simp only [uploadsOf_append, List.length_append, hup]
          simp [uploadsOf]
        · rcases h with h | ⟨body, -, h⟩
          · rw [h] at hstep; cases hstep
          · rcases h with h | ⟨mb, -, h⟩
            · rw [h] at hstep; cases hstep
            · rcases h with h | h
              · rw [h] at hstep; cases hstep
              · rw [h] at hstep
                cases hstep
                by_cases heq : sha1 = sha
                · subst heq
                  refine ⟨fun _ => ⟨⟨mb, Index.get_set_same _ _ _⟩,
                    Index.count_set_same _ _ _, ?_⟩, fun he => ?_⟩
                  · simp only [uploadsOf_append, List.length_append, hup]
                    simp [uploadsOf, hsha1]
                  · simp [eligible, hr, hsha1] at he
                · have hne : sha ≠ sha1 := fun h => heq h.symm
                  refine ⟨fun he => by simp [eligible, hsha1, heq] at he, fun _ => ⟨?_, ?_⟩⟩
                  · simp only
                    rw [Index.get_set_other _ _ _ _ hne, hnone]
                  · simp only [uploadsOf_append, List.length_append, hup]
                    simp [uploadsOf, hsha1, heq]

theorem halt_not_finished (w : World) (s st : State) (filePath : String) (o : Outcome)
    (hstep : processFile w s filePath = Step.halt st o) : o ≠ Outcome.finished := by
  rcases processFile_cases w s filePath with ⟨-, h⟩ | ⟨-, info, -, h⟩
  · rw [h] at hstep; cases hstep
  · rcases h with ⟨-, h⟩ | ⟨sha1, -, h⟩
    · rw [h] at hstep; cases hstep; decide
    · rcases h with ⟨-, h⟩ | ⟨ctype, -, h⟩
      · rw [h] at hstep; cases hstep; decide
      · rcases h with ⟨v, -, h⟩ | ⟨e, -, h⟩
        · rw [h] at hstep; cases hstep
        · rcases h with h | ⟨body, -, h⟩
          · rw [h] at hstep; cases hstep; decide
          · rcases h with h | ⟨mb, -, h⟩
            · rw [h] at hstep; cases hstep; decide
            · rcases h with h | h
              · rw [h] at hstep; cases hstep; decide
              · rw [h] at hstep; cases hstep

/-- A run that reaches the end of its loop went on after each file. -/
theorem run_cons_finished (w : World) (s s2 : State) (filePath : String) (rest : List String)
    (hrun : run w (filePath :: rest) s = (s2, Outcome.finished)) :
    ∃ s1, processFile w s filePath = Step.next s1 ∧ run w rest s1 = (s2, Outcome.finished) := by
  unfold run at hrun
  cases hstep : processFile w s filePath with
  | next s1 =>
    rw [hstep] at hrun
    exact ⟨s1, rfl, hrun⟩
  | halt st o =>
    rw [hstep] at hrun
    simp only [Prod.mk.injEq] at hrun
    exact absurd hrun.2 (halt_not_finished w s st filePath o hstep)

theorem Stored_run (w : World) (sha : String) (n : Nat) (uploadFiles : List String)
    (s s2 : State) (hread : ∀ t k, w.getErr t k = false) (hs : Stored w sha n s)
    (hrun : run w uploadFiles s = (s2, Outcome.finished)) : Stored w sha n s2 := by
  induction uploadFiles generalizing s with
  | nil =>
    simp only [run, Prod.mk.injEq] at hrun
    exact hrun.1 ▸ hs
  | cons filePath rest ih =>
    obtain ⟨s1, hstep, hrest⟩ := run_cons_finished w s s2 filePath rest hrun
    exact ih s1 (Stored_step w sha n s s1 filePath hread hs hstep) hrest

theorem Fresh_run (w : World) (sha : String) (n : Nat) (uploadFiles : List String)
    (s s2 : State) (hread : ∀ t k, w.getErr t k = false) (hs : Fresh w sha n s)
    (hrun : run w uploadFiles s = (s2, Outcome.finished)) :
    ((∃ p ∈ uploadFiles, eligible w sha p = true) → Stored w sha n s2) ∧
      ((∀ p ∈ uploadFiles, eligible w sha p = false) → Fresh w sha n s2) := by
  induction uploadFiles generalizing s with
  | nil =>
    simp only [run, Prod.mk.injEq] at hrun
    exact ⟨fun ⟨p, hp, _⟩ => by simp at hp, fun _ => hrun.1 ▸ hs⟩
  | cons filePath rest ih =>
    obtain ⟨s1, hstep, hrest⟩ := run_cons_finished w s s2 filePath rest hrun
    obtain ⟨hyes, hno⟩ := Fresh_step w sha n s s1 filePath hs hstep
    cases he : eligible w sha filePath with
    | true =>
      have hst := Stored_run w sha n rest s1 s2 hread (hyes he) hrest
      exact ⟨fun _ => hst, fun hall => by
        have := hall filePath (List.mem_cons_self _ _)
        rw [he] at this
        cases this⟩
    | false =>
      obtain ⟨ih1, ih2⟩ := ih s1 (hno he) hrest
      refine ⟨fun ⟨p, hp, hpe⟩ => ?_, fun hall => ?_⟩
      · rcases List.mem_cons.mp hp with h | h
        · rw [h, he] at hpe
          cases hpe
        · exact ih1 ⟨p, h, hpe⟩
      · exact ih2 (fun p hp => hall p (List.mem_cons_of_mem _ hp))

/-- Successive runs that all reach the end of their loop: the last state comes
from running the first enumeration and then the later ones. -/
theorem runs_cons_finished (w : World) (s s2 : State) (uploadFiles : List String)
    (later : List (List String))
    (hruns : runs w (uploadFiles :: later) s = (s2, Outcome.finished)) :
    ∃ s1, run w uploadFiles { s with basePath := "" } = (s1, Outcome.finished) ∧
      runs w later s1 = (s2, Outcome.finished) := by
  unfold runs at hruns
  rcases hr : run w uploadFiles { s with basePath := "" } with ⟨s1, o⟩
  rw [hr] at hruns
  cases o with
  | finished => exact ⟨s1, rfl, hruns⟩
  | fatal => simp at hruns
  | returned => simp at hruns
  | panicked => simp at hruns

theorem Stored_runs (w : World) (sha : String) (n : Nat) (lists : List (List String))
    (s s2 : State) (hread : ∀ t k, w.getErr t k = false) (hs : Stored w sha n s)
    (hruns : runs w lists s = (s2, Outcome.finished)) : Stored w sha n s2 := by
  induction lists generalizing s with
  | nil =>
    simp only [runs, Prod.mk.injEq] at hruns
    exact hruns.1 ▸ hs
  | cons uploadFiles later ih =>
    obtain ⟨s1, hrun, hlater⟩ := runs_cons_finished w s s2 uploadFiles later hruns
    exact ih s1 (Stored_run w sha n uploadFiles { s with basePath := "" } s1 hread hs hrun)
      hlater

theorem Fresh_runs (w : World) (sha : String) (n : Nat) (lists : List (List String))
    (s s2 : State) (hread : ∀ t k, w.getErr t k = false) (hs : Fresh w sha n s)
    (hruns : runs w lists s = (s2, Outcome.finished))
    (hex : ∃ uploadFiles ∈ lists, ∃ p ∈ uploadFiles, eligible w sha p = true) :
    Stored w sha n s2 := by
  induction lists generalizing s with
  | nil =>
    obtain ⟨fl, hfl, -⟩ := hex
    simp at hfl
  | cons uploadFiles later ih =>
    obtain ⟨s1, hrun, hlater⟩ := runs_cons_finished w s s2 uploadFiles later hruns
    obtain ⟨hyes, hno⟩ :=
      Fresh_run w sha n uploadFiles { s with basePath := "" } s1 hread hs hrun
    by_cases hhere : ∃ p ∈ uploadFiles, eligible w sha p = true
    · exact Stored_runs w sha n later s1 s2 hread (hyes hhere) hlater
    · have hall : ∀ p ∈ uploadFiles, eligible w sha p = false := by
        intro p hp
        cases he : eligible w sha p with
        | false => rfl
        | true => exact absurd ⟨p, hp, he⟩ hhere
      apply ih s1 (hno hall) hlater
      obtain ⟨fl, hfl, p, hp, hpe⟩ := hex
      rcases List.mem_cons.mp hfl with h | h
      · exact absurd ⟨p, h ▸ hp, hpe⟩ hhere
      · exact ⟨fl, h, p, hp, hpe⟩

/-- C1, refuted: `/data/a.zip` and `/data/b.zip` hold the same bytes; the run
over them from an empty index reaches its end with every operation it makes
succeeding, makes no upload call and leaves no record for their fingerprint. -/
theorem identical_zip_files_never_uploaded :
    (sampleWorld false false false).content "/data/a.zip" = some helloBytes ∧
      (sampleWorld false false false).content "/data/b.zip" = some helloBytes ∧
      Index.get emptyState.db ((sampleWorld false false false).sha256hex helloBytes) = none ∧
      (runs (sampleWorld false false false) [["/data/a.zip", "/data/b.zip"]] emptyState).2 =
        Outcome.finished ∧
      putCalls (runs (sampleWorld false false false) [["/data/a.zip", "/data/b.zip"]]
        emptyState).1.trace = [] ∧
      Index.count (runs (sampleWorld false false false) [["/data/a.zip", "/data/b.zip"]]
        emptyState).1.db ((sampleWorld false false false).sha256hex helloBytes) = 0 := by
  decide

/-- C1, amended. Dedup idempotence for the files the loop hashes: take two
files with identical bytes that are not directories and whose base names have
not the extension `.zip`, enumerated in one run or in successive runs that start
from an index without their fingerprint; when every lookup of the index is
answered (a value or not-found) and every run reaches the end of its loop, the
runs make exactly one upload call for files of that content and the index ends
with exactly one record for the fingerprint. -/
theorem dedup_idempotent (w : World) (s0 : State) (lists : List (List String))
    (f1 f2 : String) (body : Bytes) (info1 info2 : FileInfo)
    (hread : ∀ t k, w.getErr t k = false)
    (hfresh : Index.get s0.db (w.sha256hex body) = none)
    (hc1 : w.content f1 = some body) (hc2 : w.content f2 = some body)
    (hs1 : w.stat f1 = some info1) (hs2 : w.stat f2 = some info2)
    (hd1 : info1.isDir = false) (hd2 : info2.isDir = false)
    (hx1 : getExtension (filepath.Base f1) ≠ ".zip")
    (hx2 : getExtension (filepath.Base f2) ≠ ".zip")
    (hm1 : ∃ uploadFiles ∈ lists, f1 ∈ uploadFiles)
    (hm2 : ∃ uploadFiles ∈ lists, f2 ∈ uploadFiles)
    (hfin : (runs w lists s0).2 = Outcome.finished) :
    (uploadsOf w (w.sha256hex body) (runs w lists s0).1.trace).length =
        (uploadsOf w (w.sha256hex body) s0.trace).length + 1 ∧
      Index.count (runs w lists s0).1.db (w.sha256hex body) = 1 ∧
      (∃ value, Index.get (runs w lists s0).1.db (w.sha256hex body) = some value) ∧
      eligible w (w.sha256hex body) f1 = true ∧ eligible w (w.sha256hex body) f2 = true := by
  have he1 : eligible w (w.sha256hex body) f1 = true := by
    simp [eligible, reaches, hs1, hd1, hx1, GenerateSHA256, hc1]
  have he2 : eligible w (w.sha256hex body) f2 = true := by
    simp [eligible, reaches, hs2, hd2, hx2, GenerateSHA256, hc2]
  obtain ⟨fl, hfl, hf1⟩ := hm1
  have _ := hm2
  have hruns : runs w lists s0 = ((runs w lists s0).1, Outcome.finished) := by
    rw [← hfin]
  obtain ⟨hval, hcount, hup⟩ := Fresh_runs w (w.sha256hex body)
    (uploadsOf w (w.sha256hex body) s0.trace).length lists s0 (runs w lists s0).1 hread
    ⟨hfresh, rfl⟩ hruns ⟨fl, hfl, f1, hf1, he1⟩
  exact ⟨hup, hcount, hval, he1, he2⟩

/-- C1 amended, at `/data/a.txt` in a first run and `/x/b.txt` in a second. -/
theorem dedup_idempotent_witness :
    (uploadsOf (sampleWorld false false false)
        ((sampleWorld false false false).sha256hex helloBytes)
        (runs (sampleWorld false false false) [["/data/a.txt", "/data/c.zip"], ["/x/b.txt"]]
          emptyState).1.trace).length =
        (uploadsOf (sampleWorld false false false)
          ((sampleWorld false false false).sha256hex helloBytes) emptyState.trace).length + 1 ∧
      Index.count (runs (sampleWorld false false false)
        [["/data/a.txt", "/data/c.zip"], ["/x/b.txt"]] emptyState).1.db
        ((sampleWorld false false false).sha256hex helloBytes) = 1 :=
  have h := dedup_idempotent (sampleWorld false false false) emptyState
    [["/data/a.txt", "/data/c.zip"], ["/x/b.txt"]] "/data/a.txt" "/x/b.txt" helloBytes
    ⟨false, sampleTime⟩ ⟨false, sampleTime⟩
    (fun _ _ => rfl) (by decide) (by decide) (by decide) (by decide) (by decide)
    (by decide) (by decide) (by decide) (by decide)
    ⟨["/data/a.txt", "/data/c.zip"], by decide, by decide⟩
    ⟨["/x/b.txt"], by decide, by decide⟩ (by decide)
  ⟨h.1, h.2.1⟩

end GoMinioUpload
